import Mathlib

/-!
Verification development for the deeptorch stacked-autoencoder system.

We give a shallow embedding of the graph-assembly code of
`StackedAutoencoder` (src/unnamed/part_000) and of the staged trainer
`StackedAutoencoderTrainer` (src/stacked_autoencoder_trainer.cc), and prove
the spec's claims about them.

Conventions:
  - machine integers are modelled as `Nat`/`Int`;
  - `real` (float/double in the source) is modelled as `ℚ` for the
    executable parts and as `ℝ` where the source applies `sqrt`;
  - the numeric substrate (matrix kernels, actual gradient values) is out of
    scope; gradients enter as abstract per-example vectors.
-/

namespace DeepTorch

/-! ## Coders (the `Coder` codec module)

A `Coder` value records the constructor arguments used in
`StackedAutoencoder::BuildCoders`.  The `shared` field holds the index of the
encoder passed as the `coder_to_tie` argument (`none` models `NULL`). -/

structure Coder where
  n_inputs : Nat
  n_outputs : Nat
  is_noisy : Bool
  shared : Option Nat
  tied : Bool
  reparametrize : Bool
  nonlinearity : String
  smoothed : Bool
deriving DecidableEq, Repr

/-- Configuration of a `StackedAutoencoder`: the constructor arguments that
matter for graph assembly.  `u i` is `n_units_per_layer[i]` (so `u 0` is the
input width, `u (nHidden+1)` the output width). -/
structure SAcfg where
  nHidden : Nat
  u : Nat → Nat
  tied_weights : Bool
  reparametrize_tied : Bool
  is_noisy : Bool
  first_layer_smoothed : Bool
  nonlinearity : String

/-- `encoders[i]` as constructed in `StackedAutoencoder::BuildCoders`. -/
def encoderOf (cfg : SAcfg) (i : Nat) : Coder :=
  if i = 0 ∧ cfg.first_layer_smoothed then
    ⟨cfg.u i, cfg.u (i+1), false, none, false, false, cfg.nonlinearity, true⟩
  else
    ⟨cfg.u i, cfg.u (i+1), false, none, false, false, cfg.nonlinearity, false⟩

/-- `noisy_encoders[i]` as constructed in `BuildCoders` (only used when
`is_noisy`): same widths as `encoders[i]`, noisy, built over `encoders[i]`. -/
def noisyEncoderOf (cfg : SAcfg) (i : Nat) : Coder :=
  ⟨(encoderOf cfg i).n_inputs, (encoderOf cfg i).n_outputs,
    true, some i, false, false, cfg.nonlinearity, false⟩

/-- `decoders[i]` as constructed in `BuildCoders`: both the tied and the
untied branch give it input width `encoders[i]->n_outputs` and output width
`encoders[i]->n_inputs`. -/
def decoderOf (cfg : SAcfg) (i : Nat) : Coder :=
  if cfg.tied_weights then
    ⟨(encoderOf cfg i).n_outputs, (encoderOf cfg i).n_inputs,
      false, some i, true, cfg.reparametrize_tied, cfg.nonlinearity, false⟩
  else
    ⟨(encoderOf cfg i).n_outputs, (encoderOf cfg i).n_inputs,
      false, none, false, false, cfg.nonlinearity, false⟩

/-- The classifier (`outputer`) as constructed in `BuildCoders`. -/
def outputerOf (cfg : SAcfg) : Coder :=
  ⟨cfg.u cfg.nHidden, cfg.u (cfg.nHidden + 1),
    false, none, false, false, "logsoftmax", false⟩

/-! ## Modules and parameter groups

`Mod` names the graph nodes used by the assembly code: the shared coders,
the pass-through input anchor (`Identity`), and the per-layer autoencoder
sub-machines (`autoencoders[i]`, themselves `ConnectedMachine`s). -/

inductive Mod where
  | enc (i : Nat)
  | nenc (i : Nat)
  | dec (i : Nat)
  | outp
  | inputHandle
  | ae (i : Nat)
deriving DecidableEq, Repr

/-- Parameter groups, identified by the module owning the storage. -/
inductive PG where
  | encP (i : Nat)
  | decP (i : Nat)
  | outP
deriving DecidableEq, Repr

/-- Modelled from the spec: parameter ownership of each leaf module.  The
`Coder` implementation is not under src/; per spec §3 a noisy coder's linear
transform is the paired encoder's storage (the constructor receives
`encoders[i]`), a tied decoder's weights are a transpose view into the
encoder's storage, and the `Identity` input anchor carries no parameters. -/
def leafPG (tied : Bool) : Mod → List PG
  | .enc i => [.encP i]
  | .nenc i => [.encP i]
  | .dec i => if tied then [.encP i] else [.decP i]
  | .outp => [.outP]
  | .inputHandle => []
  | .ae _ => []

/-- Leaves of `autoencoders[i]` as built in `BuildAutoencoders`: the noisy
encoder (noisy mode) or the plain encoder, then the decoder. -/
def aeLeaves (noisy : Bool) (i : Nat) : List Mod :=
  [if noisy then .nenc i else .enc i, .dec i]

/-- Flatten a module to its leaf modules (autoencoders expand to their
contents, per `BuildAutoencoders`). -/
def leavesOf (noisy : Bool) : Mod → List Mod
  | .ae i => aeLeaves noisy i
  | m => [m]

/-! ## ConnectedMachine

Modelled from the spec: the `ConnectedMachine` (the spec's
`ComputationGraph`, §4.1) is not under src/.  It is a container of modules
organised in ordered layers: `addMachine` appends a module to the current
layer, `connectOn p` connects the most recently added module's input onto
`p`'s output, `addLayer` closes the current layer, `addFCL` places a module
in a fresh layer fully connected to the previous layer, and `build`
finalises the layering. -/

structure CM where
  closed : List (List Mod)
  current : List Mod
  links : List (Mod × Mod)
  lastAdded : Option Mod
deriving DecidableEq, Repr

def emptyCM : CM := ⟨[], [], [], none⟩

def addMachine (g : CM) (m : Mod) : CM :=
  { g with current := g.current ++ [m], lastAdded := some m }

def connectOn (g : CM) (p : Mod) : CM :=
  match g.lastAdded with
  | some c => { g with links := g.links ++ [(c, p)] }
  | none => g

def addLayer (g : CM) : CM :=
  { g with closed := g.closed ++ [g.current], current := [] }

def prevLayer (g : CM) : List Mod := (g.closed.getLast?).getD []

def addFCL (g : CM) (m : Mod) : CM :=
  let g := if g.current.isEmpty then g else addLayer g
  let g := addMachine g m
  (prevLayer g).foldl connectOn g

def buildCM (g : CM) : CM :=
  if g.current.isEmpty then g else addLayer g

/-- The module set of a built machine (all layers, in order). -/
def cmMods (g : CM) : List Mod := g.closed.flatten

/-- All leaf modules of a built machine (autoencoders expanded). -/
def cmLeaves (noisy : Bool) (g : CM) : List Mod :=
  (cmMods g).flatMap (leavesOf noisy)

/-- All parameter groups referenced by a built machine. -/
def cmParams (noisy tied : Bool) (g : CM) : List PG :=
  (cmLeaves noisy g).flatMap (leafPG tied)

/-- Modelled from the spec: during `backward` a module whose output is
consumed by nobody (no alpha links) and that is not part of the final
(output) layer faults — src/unnamed/part_000 line 233: a node with no
alpha links segfaults in `ConnectedMachine` during backprop.  `backwardOk`
checks that each module outside the final layer has a consumer. -/
def backwardOk (g : CM) : Bool :=
  g.closed.dropLast.flatten.all (fun m => g.links.any (fun cp => cp.2 = m))

/-! ## StackedAutoencoder graph assembly (src/unnamed/part_000)

The builders below are transcribed from `BuildAutoencoders`,
`BuildMesdMachines`, `BuildSupMachine`, `AddCoreMachines`,
`AddEncodersUpToIncluded`, `AddUnsupMachines`, `BuildUnsupMachine` and
`BuildSupUnsupMachine`.  They depend only on `n_hidden_layers` (`N`) and
`is_noisy` (`noisy`). -/

/-- `autoencoders[i]` (BuildAutoencoders): FCL of the (noisy) encoder then
FCL of the decoder. -/
def autoencoderCM (noisy : Bool) (i : Nat) : CM :=
  buildCM (addFCL (addFCL emptyCM (if noisy then .nenc i else .enc i)) (.dec i))

/-- `mesd_machines[i]` (BuildMesdMachines): encoders 0..i-1 chained, then
the (noisy) encoder i, then decoder i. -/
def mesdCM (noisy : Bool) (i : Nat) : CM :=
  let g := (List.range i).foldl (fun g j => addFCL g (.enc j)) emptyCM
  let g := addFCL g (if noisy then .nenc i else .enc i)
  buildCM (addFCL g (.dec i))

/-- The supervised machine (BuildSupMachine): encoders chained, then the
outputer. -/
def supCM (N : Nat) : CM :=
  buildCM (addFCL ((List.range N).foldl (fun g j => addFCL g (.enc j)) emptyCM) .outp)

/-- The loop body of `AddEncodersUpToIncluded`: add encoder `i`, connect it
on encoder `i-1` unless it is on the first layer, add the input handle when
`i = 0` and requested, and close the layer. -/
def uStep (withHandle : Bool) (g : CM) (i : Nat) : CM :=
  let g := addMachine g (.enc i)
  let g := if 0 < i then connectOn g (.enc (i-1)) else g
  let g := if i = 0 ∧ withHandle then addMachine g .inputHandle else g
  addLayer g

/-- `AddEncodersUpToIncluded(mch, index_up_to_included, add_input_handle)`:
the loop runs for `i = 0 .. index_up_to_included`; when the index is
negative and the handle is requested, the handle is still added in its own
layer. -/
def addEncodersUpToIncluded (g : CM) (idx : Int) (withHandle : Bool) : CM :=
  let g := (List.range (idx + 1).toNat).foldl (uStep withHandle) g
  if idx < 0 ∧ withHandle then addLayer (addMachine g .inputHandle) else g

/-- The loop body of `AddUnsupMachines`: non-noisy plugs `decoders[i]` onto
`encoders[i]`; noisy plugs `autoencoders[i]` onto `encoders[i-1]`, or onto
the input handle for the first layer. -/
def unsupBranchStep (noisy : Bool) (g : CM) (i : Nat) : CM :=
  if !noisy then connectOn (addMachine g (.dec i)) (.enc i)
  else if 0 < i then connectOn (addMachine g (.ae i)) (.enc (i-1))
  else connectOn (addMachine g (.ae i)) .inputHandle

/-- `AddUnsupMachines(mch)`. -/
def addUnsupMachines (noisy : Bool) (N : Nat) (g : CM) : CM :=
  (List.range N).foldl (unsupBranchStep noisy) g

/-- The encoder loop body of `BuildUnsupMachine`: encoder `i` is added (and
connected) only when `i < N-1` or in the non-noisy case; the input handle is
added for `i = 0` in the noisy case; a layer boundary is placed when a
module was added. -/
def unsupEncStep (noisy : Bool) (N : Nat) (g : CM) (i : Nat) : CM :=
  let g :=
    if i < N - 1 ∨ !noisy then
      let g := addMachine g (.enc i)
      if 0 < i then connectOn g (.enc (i-1)) else g
    else g
  let g := if i = 0 ∧ noisy then addMachine g .inputHandle else g
  if i < N - 1 ∨ !noisy then addLayer g
  else if i = 0 ∧ noisy then addLayer g
  else g

/-- `BuildUnsupMachine`. -/
def unsupCM (noisy : Bool) (N : Nat) : CM :=
  buildCM (addUnsupMachines noisy N
    ((List.range N).foldl (unsupEncStep noisy N) emptyCM))

/-- `AddCoreMachines(mch)`: each encoder in its own layer, connected on the
previous encoder, with the input handle joining layer 0 in the noisy case. -/
def coreStep (noisy : Bool) (g : CM) (i : Nat) : CM :=
  let g := addMachine g (.enc i)
  let g := if 0 < i then connectOn g (.enc (i-1)) else g
  let g := if i = 0 ∧ noisy then addMachine g .inputHandle else g
  addLayer g

/-- `BuildSupUnsupMachine`: the core encoder chain, the outputer connected
on the last encoder, then all unsupervised branches. -/
def supUnsupCM (noisy : Bool) (N : Nat) : CM :=
  let g := (List.range N).foldl (coreStep noisy) emptyCM
  let g := connectOn (addMachine g .outp) (.enc (N-1))
  buildCM (addUnsupMachines noisy N g)

/-! ### Weight-decay options (setL1WeightDecay / setL2WeightDecay)

Each call `m->linear_layer->setROption(name, wd)` is recorded as an event
`(m, name, wd)`, in source order: every encoder, then the outputer, then —
only when tied weights are disabled — every decoder. -/

def setL1WeightDecay (N : Nat) (tied : Bool) (wd : ℚ) : List (Mod × String × ℚ) :=
  (List.range N).map (fun i => (Mod.enc i, "l1 weight decay", wd))
    ++ [(Mod.outp, "l1 weight decay", wd)]
    ++ if !tied then (List.range N).map (fun i => (Mod.dec i, "l1 weight decay", wd)) else []

def setL2WeightDecay (N : Nat) (tied : Bool) (wd : ℚ) : List (Mod × String × ℚ) :=
  (List.range N).map (fun i => (Mod.enc i, "weight decay", wd))
    ++ [(Mod.outp, "weight decay", wd)]
    ++ if !tied then (List.range N).map (fun i => (Mod.dec i, "weight decay", wd)) else []

/-! ## StackedAutoencoderTrainer (src/stacked_autoencoder_trainer.cc) -/

/-- `index_topmost_trained` as computed at the start of
`TrainSelectiveUnsup`: the loop leaves the last included index (or -1). -/
def topmostIdx (pl : List Bool) : Int :=
  (List.range pl.length).foldl (fun t i => if pl.getD i false then (i : Int) else t) (-1)

/-- The decoder/autoencoder-adding loop body of `TrainSelectiveUnsup`
(graph content only; the partial-backprop flag handling is modelled in the
trainer state machine below). -/
def selBranchStep (noisy : Bool) (pl : List Bool) (g : CM) (i : Nat) : CM :=
  if pl.getD i false then
    if !noisy then connectOn (addMachine g (.dec i)) (.enc i)
    else if 0 < i then connectOn (addMachine g (.ae i)) (.enc (i-1))
    else connectOn (addMachine g (.ae i)) .inputHandle
  else g

/-- The encoder part of the machine built by `TrainSelectiveUnsup`:
non-noisy adds encoders up to the topmost trained layer; noisy adds them up
to one below, with the input handle exactly when layer 0 is pretrained. -/
def selEncPart (noisy : Bool) (pl : List Bool) : CM :=
  if !noisy then addEncodersUpToIncluded emptyCM (topmostIdx pl) false
  else if pl.getD 0 false then addEncodersUpToIncluded emptyCM (topmostIdx pl - 1) true
  else addEncodersUpToIncluded emptyCM (topmostIdx pl - 1) false

/-- The `selective_machine` built by `TrainSelectiveUnsup` for inclusion
list `pl` over `N = pl.length` hidden layers. -/
def selectiveCM (noisy : Bool) (pl : List Bool) : CM :=
  buildCM ((List.range pl.length).foldl (selBranchStep noisy pl) (selEncPart noisy pl))

/-! ### Top-K truncated backward (fpropbprop, topK branch) -/

/-- A source of data fed to a per-module `backward` call.  Indices are kept
as `Int` because the source indexes `encoders[i-1]` with a C `int`. -/
inductive TSrc where
  | rawInput
  | encOutputs (i : Int)
  | encBeta (i : Int)
  | outBeta
  | critBeta
deriving DecidableEq, Repr

/-- One explicit `backward` call: the module backwarded, the input it is
given, and the output gradient it is given. -/
structure BCall where
  target : Mod
  inputSrc : TSrc
  gradSrc : TSrc
deriving DecidableEq, Repr

/-- The encoder-loop body of the topK branch of `fpropbprop`: note the
`i == n_hidden_layers-1` test comes before the `i == 0` test. -/
def topKLoopCall (N : Nat) (i : Nat) : BCall :=
  if i = N - 1 then ⟨.enc i, .encOutputs ((i : Int) - 1), .outBeta⟩
  else if i = 0 then ⟨.enc 0, .rawInput, .encBeta 1⟩
  else ⟨.enc i, .encOutputs ((i : Int) - 1), .encBeta ((i : Int) + 1)⟩

/-- The sequence of explicit backward calls issued by the topK branch of
`fpropbprop`: the outputer on `encoders[N-1]->outputs` with the criterion
beta, then encoders `i = N-1` down to `i = N-topKlayers+1`. -/
def topKCalls (N K : Nat) : List BCall :=
  ⟨.outp, .encOutputs ((N : Int) - 1), .critBeta⟩ ::
    (List.range (K - 1)).map (fun j => topKLoopCall N (N - 1 - j))

/-! ### Layerwise unsupervised step (fpropbprop, layerwise branch)

In the layerwise branch the trainer forwards `mesd_machines[layer]`, runs
the criterion, and backwards only `autoencoders[layer]`; the generic
training loop then updates the parameters of the active machine
(`mesd_machines[layer]`).  A parameter changes only if it both received
gradient (the backward touched it; derivatives are cleared before each
example) and belongs to the updated machine. -/

/-- Parameter groups receiving gradient in a layerwise step: the leaves of
`autoencoders[layer]`. -/
def layerwiseGradPG (noisy tied : Bool) (layer : Nat) : List PG :=
  cmParams noisy tied (autoencoderCM noisy layer)

/-- Parameter groups the update step may write: the parameters of the
active machine `mesd_machines[layer]`. -/
def layerwiseUpdatePG (noisy tied : Bool) (layer : Nat) : List PG :=
  cmParams noisy tied (mesdCM noisy layer)

/-- Parameter groups actually changed by one layerwise step: updated and
holding a nonzero-capable gradient. -/
def layerwiseChangedPG (noisy tied : Bool) (layer : Nat) : List PG :=
  (layerwiseUpdatePG noisy tied layer).filter (· ∈ layerwiseGradPG noisy tied layer)

/-! ### Gradient-variance (Hessian) evaluation (`EvalHessian`) -/

/-- Accumulator of the per-sample measurement loop of `EvalHessian`:
running sums of each parameter's gradient and squared gradient, plus the
diagnostic log of (flat parameter index, value) pairs whose magnitude
exceeded the 10.0 threshold. -/
structure HessAcc where
  sumX : List ℚ
  sumX2 : List ℚ
  anomalyLog : List (Nat × ℚ)
deriving DecidableEq, Repr

/-- One iteration of the measurement loop: log each parameter whose
per-example gradient magnitude exceeds 10.0, and accumulate X and X². -/
def hessStep (acc : HessAcc) (g : List ℚ) : HessAcc :=
  { sumX := acc.sumX.zipWith (fun s v => s + v) g
    sumX2 := acc.sumX2.zipWith (fun s v => s + v * v) g
    anomalyLog := acc.anomalyLog ++ g.enum.filter (fun p => 10 < |p.2|) }

/-- The second phase of `EvalHessian`: per-parameter variance
`sumX2/n − (sumX/n)²` and the running strict-max starting at 0. -/
def hessMaxVarOf (n : Nat) (sumX sumX2 : List ℚ) : ℚ :=
  (sumX.zipWith (fun x x2 => x2 / (n : ℚ) - (x / (n : ℚ)) * (x / (n : ℚ))) sumX2).foldl
    (fun m v => if m < v then v else m) 0

/-- `EvalHessian` over the per-example gradient vectors `samples` of a
machine with `nParams` parameters: returns the accumulator (with the
anomaly log) and the result `1 / max_variance`. -/
def evalHessianRun (samples : List (List ℚ)) (nParams : Nat) : HessAcc × ℚ :=
  let acc := samples.foldl hessStep
    ⟨List.replicate nParams 0, List.replicate nParams 0, []⟩
  (acc, 1 / hessMaxVarOf samples.length acc.sumX acc.sumX2)

/-- Specification-side column statistics: the gradient sum of parameter `j`
over the samples. -/
def colSum (samples : List (List ℚ)) (j : Nat) : ℚ :=
  samples.foldl (fun s g => s + g.getD j 0) 0

/-- Specification-side column sum of squares. -/
def colSum2 (samples : List (List ℚ)) (j : Nat) : ℚ :=
  samples.foldl (fun s g => s + g.getD j 0 * g.getD j 0) 0

/-- Specification-side per-parameter gradient variance. -/
def colVar (samples : List (List ℚ)) (j : Nat) : ℚ :=
  let n : ℚ := samples.length
  colSum2 samples j / n - (colSum samples j / n) * (colSum samples j / n)

/-- Specification-side maximum per-parameter variance (≥ 0 cap, as the
source starts its max search at 0). -/
def maxVarSpec (samples : List (List ℚ)) (nParams : Nat) : ℚ :=
  (List.range nParams).foldl (fun m j => max m (colVar samples j)) 0

/-- Result of `EvalHessian` (the inverse max variance). -/
def evalHessianRes (samples : List (List ℚ)) (nParams : Nat) : ℚ :=
  (evalHessianRun samples nParams).2

/-- Sample count used by `IterInitialize` when re-evaluating criterion
weights (the hard-coded `1000` of the source). -/
def hessianSampleCount : Nat := 1000

/-! ### Adaptive criterion reweighting (`IterInitialize`) -/

/-- A stored `real` weight value, kept symbolic so that the model stays
executable: either a rational value `x`, denoting the real `x`, or
`sqrtOf x`, denoting the real `√x`. -/
inductive WVal where
  | ratQ (x : ℚ)
  | sqrtOf (x : ℚ)
deriving DecidableEq, Repr

/-- `IterInitialize`: when `do_eval_criterion_weights` is set and the epoch
counter is nonzero, re-evaluate the criterion weights from the gradient
variances: `weights[0] := EvalHessian(sup)`, `weights[1+i] :=
EvalHessian(unsup i)`, then `weights[1+i] := sqrt(weights[1+i] /
weights[0])` and `weights[0] := 1.0`.  Otherwise the weights are left
unchanged.  `supS`/`unsupS i` are the per-example gradient vectors the
substrate produces for the supervised machine and for `mesd_machines[i]`,
`supN`/`unsupN i` the parameter counts. -/
def iterInitializeWeights (doEval : Bool) (epoch : Nat) (w : List WVal) (N : Nat)
    (supS : List (List ℚ)) (supN : Nat)
    (unsupS : Nat → List (List ℚ)) (unsupN : Nat → Nat) : List WVal :=
  if doEval ∧ epoch ≠ 0 then
    let w0 : ℚ := evalHessianRes supS supN
    WVal.ratQ 1 :: (List.range N).map (fun i =>
      WVal.sqrtOf (evalHessianRes (unsupS i) (unsupN i) / w0))
  else w

/-! ### Trainer phase state machine

The trainer's mutable per-phase state: the active machine and criterion,
the partial-backprop flags the phases toggle, and the mode flags.  The
numeric effects of `train` are external; each phase is modelled by the
field assignments it performs, and every call to `train` is recorded as an
event snapshotting the state under which training ran. -/

inductive MachineSel where
  | sae
  | mesdM (i : Nat)
  | unsupM
  | supUnsupM
  | selectiveM
deriving DecidableEq, Repr

/-- A component criterion of a concatenated criterion. -/
inductive CritTag where
  | supT
  | unsupT (i : Nat)
deriving DecidableEq, Repr

/-- The active criterion: the supervised criterion, one layer's
unsupervised criterion, or a `ConcatCriterion` over components with
optional weights (`none` models a `NULL` weight array). -/
inductive CritSel where
  | sup
  | unsupC (i : Nat)
  | concatC (parts : List CritTag) (weights : Option (List ℚ))
deriving DecidableEq, Repr

structure TrSt where
  nHidden : Nat
  noisy : Bool
  machine : MachineSel
  crit : CritSel
  encPB : Nat → Bool
  aePB : Nat → Bool
  outPB : Bool
  layerwiseTraining : Bool
  topKTraining : Bool
  topKlayers : Nat
  critWeights : List ℚ

/-- A snapshot of the state at the moment `train` is invoked. -/
structure Ev where
  machine : MachineSel
  crit : CritSel
  encPB : Nat → Bool
  aePB : Nat → Bool
  outPB : Bool
  layerwiseTraining : Bool
  topKTraining : Bool

def snap (s : TrSt) : Ev :=
  ⟨s.machine, s.crit, s.encPB, s.aePB, s.outPB, s.layerwiseTraining, s.topKTraining⟩

/-- Pointwise boolean-flag update (`setPartialBackprop` on one module). -/
def updF (f : Nat → Bool) (i : Nat) (b : Bool) : Nat → Bool :=
  fun j => if j = i then b else f j

/-- `TrainUnsupLayer`: select `mesd_machines[layer]` and the layer's
unsupervised criterion, train, then restore the supervised pair. -/
def trainUnsupLayer (s : TrSt) (layer : Nat) : TrSt × List Ev :=
  let s := { s with machine := .mesdM layer, crit := .unsupC layer }
  let ev := snap s
  ({ s with machine := .sae, crit := .sup }, [ev])

/-- `TrainUnsupLayerwise`: set the layerwise flag, train each layer in
turn, clear the flag. -/
def trainUnsupLayerwise (s : TrSt) : TrSt × List Ev :=
  let s := { s with layerwiseTraining := true }
  let r := (List.range s.nHidden).foldl
    (fun (p : TrSt × List Ev) i =>
      ((trainUnsupLayer p.1 i).1, p.2 ++ (trainUnsupLayer p.1 i).2)) (s, [])
  ({ r.1 with layerwiseTraining := false }, r.2)

/-- `TrainSelectiveUnsupLayerwise`: as layerwise, but training only the
included layers. -/
def trainSelectiveUnsupLayerwise (s : TrSt) (pl : List Bool) : TrSt × List Ev :=
  let s := { s with layerwiseTraining := true }
  let r := (List.range s.nHidden).foldl
    (fun (p : TrSt × List Ev) i =>
      if pl.getD i false then
        ((trainUnsupLayer p.1 i).1, p.2 ++ (trainUnsupLayer p.1 i).2)
      else p) (s, [])
  ({ r.1 with layerwiseTraining := false }, r.2)

/-- One iteration of the flag effects of the decoder loop of
`TrainSelectiveUnsup`: encoder `i`'s partial-backprop flag is set to `pb`;
in the noisy case an included layer's autoencoder flag is set as well. -/
def selFlagStep (pl : List Bool) (pb : Bool) (s : TrSt) (i : Nat) : TrSt :=
  let t := { s with encPB := updF s.encPB i pb }
  if pl.getD i false ∧ t.noisy then { t with aePB := updF t.aePB i pb } else t

/-- The flag effects of the decoder loop of `TrainSelectiveUnsup`. -/
def selFlagLoop (s : TrSt) (pl : List Bool) (pb : Bool) : TrSt :=
  (List.range s.nHidden).foldl (selFlagStep pl pb) s

/-- One iteration of the restore loop at the end of `TrainSelectiveUnsup`:
encoder `i`'s flag (and in the noisy case autoencoder `i`'s flag) is set to
false. -/
def selRestoreStep (s : TrSt) (i : Nat) : TrSt :=
  let t := { s with encPB := updF s.encPB i false }
  if t.noisy then { t with aePB := updF t.aePB i false } else t

/-- The restore loop at the end of `TrainSelectiveUnsup`. -/
def selRestoreLoop (s : TrSt) : TrSt :=
  (List.range s.nHidden).foldl selRestoreStep s

/-- `TrainSelectiveUnsup`: build the selective machine, set the flags,
train with an unweighted concatenated criterion over the included layers,
then reset the flags and restore the supervised machine/criterion. -/
def trainSelectiveUnsup (s : TrSt) (pl : List Bool) (pb : Bool) : TrSt × List Ev :=
  let s := selFlagLoop s pl pb
  let parts := ((List.range s.nHidden).filter (fun i => pl.getD i false)).map CritTag.unsupT
  let s := { s with machine := .selectiveM, crit := .concatC parts none }
  let ev := snap s
  let s := selRestoreLoop s
  ({ s with machine := .sae, crit := .sup }, [ev])

/-- `TrainUnsupNotOutput`: train the unsupervised machine with a
concatenated criterion over every layer's unsupervised criterion, all
weights 1.0 (stored past the supervised slot), then restore. -/
def trainUnsupNotOutput (s : TrSt) : TrSt × List Ev :=
  let ws := List.replicate s.nHidden (1 : ℚ)
  let s := { s with critWeights := s.critWeights.headD 0 :: ws }
  let parts := (List.range s.nHidden).map CritTag.unsupT
  let s := { s with machine := .unsupM, crit := .concatC parts (some ws) }
  let ev := snap s
  ({ s with machine := .sae, crit := .sup }, [ev])

/-- `TrainSupUnsup`: weights `[1.0, w, w, ...]`, concatenated criterion of
the supervised criterion and every unsupervised criterion, train on the
joint machine, restore. -/
def trainSupUnsup (s : TrSt) (w : ℚ) : TrSt × List Ev :=
  let ws := (1 : ℚ) :: List.replicate s.nHidden w
  let s := { s with critWeights := ws }
  let parts := CritTag.supT :: (List.range s.nHidden).map CritTag.unsupT
  let s := { s with machine := .supUnsupM, crit := .concatC parts (some ws) }
  let ev := snap s
  ({ s with machine := .sae, crit := .sup }, [ev])

/-- `TrainUnsup`: set the outputer to partial backprop, run `TrainSupUnsup`
with unsupervised weight 1.0, then restore the outputer. -/
def trainUnsup (s : TrSt) : TrSt × List Ev :=
  let s := { s with outPB := true }
  let r := trainSupUnsup s 1
  ({ r.1 with outPB := false }, r.2)

/-- `TrainSupervisedTopKLayers`: set the topK flags, train the supervised
pair, clear the flag. -/
def trainSupervisedTopKLayers (s : TrSt) (k : Nat) : TrSt × List Ev :=
  let s := { s with topKTraining := true, topKlayers := k, machine := .sae, crit := .sup }
  let ev := snap s
  ({ s with topKTraining := false }, [ev])

/-- The training-phase entry points of the trainer. -/
inductive Phase where
  | layerwise
  | selectiveLayerwise (pl : List Bool)
  | selective (pl : List Bool) (pb : Bool)
  | unsupNotOutput
  | unsupOnly
  | supUnsup (w : ℚ)
  | topK (k : Nat)

def runPhase (p : Phase) (s : TrSt) : TrSt × List Ev :=
  match p with
  | .layerwise => trainUnsupLayerwise s
  | .selectiveLayerwise pl => trainSelectiveUnsupLayerwise s pl
  | .selective pl pb => trainSelectiveUnsup s pl pb
  | .unsupNotOutput => trainUnsupNotOutput s
  | .unsupOnly => trainUnsup s
  | .supUnsup w => trainSupUnsup s w
  | .topK k => trainSupervisedTopKLayers s k

/-- The trainer's default (between-phases) configuration: the supervised
machine and criterion are active, no partial-backprop flag is set on any
encoder, autoencoder or the outputer, and no mode flag is set. -/
def IsDefault (s : TrSt) : Prop :=
  s.machine = .sae ∧ s.crit = .sup ∧
  (∀ i < s.nHidden, s.encPB i = false) ∧
  (∀ i < s.nHidden, s.aePB i = false) ∧
  s.outPB = false ∧ s.layerwiseTraining = false ∧ s.topKTraining = false

instance (s : TrSt) : Decidable (IsDefault s) := by
  unfold IsDefault; infer_instance

/-- A concrete default trainer state over two hidden layers (noisy), used
as a witness instance. -/
def sampleSt : TrSt :=
  ⟨2, true, .sae, .sup, fun _ => false, fun _ => false, false, false, false, 0, []⟩

end DeepTorch

open DeepTorch

/-- Claim C3: for every StackedAutoencoder and every hidden-layer index
`i < N`, `Decoder(i)` is constructed with input width equal to `Encoder(i)`'s
output width and output width equal to `Encoder(i)`'s input width,
regardless of whether tied weights are enabled. -/
theorem claim_C3 (cfg : DeepTorch.SAcfg) (i : Nat) (h : i < cfg.nHidden) :
    (DeepTorch.decoderOf cfg i).n_inputs = (DeepTorch.encoderOf cfg i).n_outputs ∧
    (DeepTorch.decoderOf cfg i).n_outputs = (DeepTorch.encoderOf cfg i).n_inputs := by
  unfold DeepTorch.decoderOf
  rcases cfg.tied_weights with _ | _ <;> simp

/-- Witness for C3 at a concrete topology (input 4, one hidden layer of
width 3, output 2, untied): the hypothesis `0 < 1` is discharged and the
width symmetry evaluates. -/
theorem claim_C3_witness :
    (0 : Nat) < 1 ∧
    ((DeepTorch.decoderOf ⟨1, fun j => [4, 3, 2].getD j 0, false, false, false, false, "tanh"⟩ 0).n_inputs =
      (DeepTorch.encoderOf ⟨1, fun j => [4, 3, 2].getD j 0, false, false, false, false, "tanh"⟩ 0).n_outputs ∧
     (DeepTorch.decoderOf ⟨1, fun j => [4, 3, 2].getD j 0, false, false, false, false, "tanh"⟩ 0).n_outputs =
      (DeepTorch.encoderOf ⟨1, fun j => [4, 3, 2].getD j 0, false, false, false, false, "tanh"⟩ 0).n_inputs) :=
  ⟨by decide, claim_C3 _ 0 (by decide)⟩

/-- Claim C4 evaluated at the failing input: for one hidden layer and
`top_k_layers = 2` (allowed by the assert `0 < K ≤ N+1`), the loop index
`i = 0` equals `N-1`, so the `i == N-1` branch wins over the `i == 0`
branch and encoder 0 is backwarded with `encoders[-1]->outputs` — an
out-of-bounds read — instead of the raw input the claim (and the unreachable
`i == 0` branch) prescribes. -/
theorem claim_C4_bug_eval :
    topKCalls 1 2 =
      [⟨Mod.outp, TSrc.encOutputs 0, TSrc.critBeta⟩,
       ⟨Mod.enc 0, TSrc.encOutputs (-1), TSrc.outBeta⟩] ∧
    TSrc.encOutputs (-1) ≠ TSrc.rawInput := by
  constructor
  · decide
  · decide

/-- Claim C10: `setL1WeightDecay` and `setL2WeightDecay` apply the decay
option to every encoder's and the classifier's linear layer; the decoders'
linear layers receive it exactly when tying is disabled; and no module
receives the option twice. -/
theorem claim_C10 (N : Nat) (tied : Bool) (wd : ℚ) :
    (∀ m : Mod,
      m ∈ (setL1WeightDecay N tied wd).map Prod.fst ↔
        ((∃ i < N, m = Mod.enc i) ∨ m = Mod.outp ∨
          (tied = false ∧ ∃ i < N, m = Mod.dec i))) ∧
    (∀ m : Mod,
      m ∈ (setL2WeightDecay N tied wd).map Prod.fst ↔
        ((∃ i < N, m = Mod.enc i) ∨ m = Mod.outp ∨
          (tied = false ∧ ∃ i < N, m = Mod.dec i))) ∧
    ((setL1WeightDecay N tied wd).map Prod.fst).Nodup ∧
    ((setL2WeightDecay N tied wd).map Prod.fst).Nodup := by
  have hfst : ∀ name : String,
      (((List.range N).map (fun i => (Mod.enc i, name, wd))
          ++ [(Mod.outp, name, wd)]
          ++ if !tied then (List.range N).map (fun i => (Mod.dec i, name, wd)) else []).map
        Prod.fst) =
      ((List.range N).map Mod.enc ++ [Mod.outp]
          ++ if !tied then (List.range N).map Mod.dec else []) := by
    intro name
    rcases tied <;> simp [List.map_map, Function.comp_def]
  have hmem : ∀ m : Mod,
      m ∈ ((List.range N).map Mod.enc ++ [Mod.outp]
            ++ if !tied then (List.range N).map Mod.dec else []) ↔
        ((∃ i < N, m = Mod.enc i) ∨ m = Mod.outp ∨
          (tied = false ∧ ∃ i < N, m = Mod.dec i)) := by
    intro m
    rcases tied <;>
      simp [List.mem_append, List.mem_map, List.mem_range, eq_comm]
  have hnd : ((List.range N).map Mod.enc ++ [Mod.outp]
      ++ if !tied then (List.range N).map Mod.dec else []).Nodup := by
    have henc : ((List.range N).map Mod.enc).Nodup :=
      (List.nodup_range N).map (fun a b h => by injection h)
    have hdec : ((List.range N).map Mod.dec).Nodup :=
      (List.nodup_range N).map (fun a b h => by injection h)
    rcases tied <;>
      simp [List.nodup_append, List.mem_map, List.mem_range,
        henc, hdec, List.disjoint_left]
  unfold setL1WeightDecay setL2WeightDecay
  rw [hfst, hfst]
  exact ⟨hmem, hmem, hnd, hnd⟩

/-- Claim C2: in the layerwise unsupervised phase only the current layer's
autoencoder parameters receive gradient (the classifier never does), and in
the spec's end-to-end scenario (one hidden layer, non-noisy, untied) the
set of parameters a step can change is exactly Encoder(0)'s and
Decoder(0)'s, with the classifier's excluded. -/
theorem claim_C2 :
    (∀ (noisy tied : Bool) (layer : Nat),
        PG.outP ∉ layerwiseGradPG noisy tied layer ∧
        ∀ pg ∈ layerwiseGradPG noisy tied layer,
          pg = PG.encP layer ∨ pg = PG.decP layer) ∧
    layerwiseChangedPG false false 0 = [PG.encP 0, PG.decP 0] ∧
    PG.outP ∉ layerwiseChangedPG false false 0 := by
  refine ⟨?_, by decide, by decide⟩
  intro noisy tied layer
  rcases noisy <;> rcases tied <;>
    simp [layerwiseGradPG, cmParams, cmLeaves, cmMods, autoencoderCM, buildCM,
      addFCL, addMachine, addLayer, connectOn, prevLayer, emptyCM, leavesOf,
      aeLeaves, leafPG]

/-- Claim C5: `TrainSupUnsup` trains the joint machine under a concatenated
criterion whose components are the supervised criterion followed by the N
unsupervised criteria, with the supervised weight fixed at exactly 1.0 and
every unsupervised weight equal to the caller-supplied scalar; `TrainUnsup`
(unsupervised-only body training) sets the classifier to partial backprop
for the duration of the phase (every training event sees the flag up) and
restores it afterwards. -/
theorem claim_C5 (s : TrSt) (w : ℚ) :
    ((trainSupUnsup s w).2.map (fun e => (e.machine, e.crit)) =
      [(MachineSel.supUnsupM,
        CritSel.concatC (CritTag.supT :: (List.range s.nHidden).map CritTag.unsupT)
          (some ((1 : ℚ) :: List.replicate s.nHidden w)))]) ∧
    (∀ e ∈ (trainUnsup s).2, e.outPB = true) ∧
    (trainUnsup s).2 ≠ [] ∧
    (trainUnsup s).1.outPB = false := by
  refine ⟨rfl, ?_, by simp [trainUnsup, trainSupUnsup], rfl⟩
  intro e he
  simp [trainUnsup, trainSupUnsup, snap] at he
  simp [he]

/-- The net state effect of `TrainUnsupLayer`: the active pair is restored
to the supervised machine and criterion; nothing else changes. -/
theorem trainUnsupLayer_state (s : TrSt) (i : Nat) :
    (trainUnsupLayer s i).1 = { s with machine := .sae, crit := .sup } := rfl

/-- State of the per-layer fold of `TrainUnsupLayerwise` and
`TrainSelectiveUnsupLayerwise`: the fold either leaves the state alone or
resets the active pair to the supervised one. -/
theorem layerwiseFold_state (l : List Nat) (q : TrSt × List Ev) :
    ((l.foldl (fun (p : TrSt × List Ev) i =>
        ((trainUnsupLayer p.1 i).1, p.2 ++ (trainUnsupLayer p.1 i).2)) q).1 =
      q.1 ∨
     (l.foldl (fun (p : TrSt × List Ev) i =>
        ((trainUnsupLayer p.1 i).1, p.2 ++ (trainUnsupLayer p.1 i).2)) q).1 =
      { q.1 with machine := .sae, crit := .sup }) := by
  induction l generalizing q with
  | nil => exact Or.inl rfl
  | cons a l ih =>
    rcases ih ((trainUnsupLayer q.1 a).1, q.2 ++ (trainUnsupLayer q.1 a).2) with h | h <;>
      simp only [List.foldl_cons] at * <;> rw [h] <;> exact Or.inr rfl

/-- As `layerwiseFold_state`, for the conditional fold of
`TrainSelectiveUnsupLayerwise`. -/
theorem selLayerwiseFold_state (pl : List Bool) (l : List Nat) (q : TrSt × List Ev) :
    ((l.foldl (fun (p : TrSt × List Ev) i =>
        if pl.getD i false then
          ((trainUnsupLayer p.1 i).1, p.2 ++ (trainUnsupLayer p.1 i).2)
        else p) q).1 = q.1 ∨
     (l.foldl (fun (p : TrSt × List Ev) i =>
        if pl.getD i false then
          ((trainUnsupLayer p.1 i).1, p.2 ++ (trainUnsupLayer p.1 i).2)
        else p) q).1 = { q.1 with machine := .sae, crit := .sup }) := by
  induction l generalizing q with
  | nil => exact Or.inl rfl
  | cons a l ih =>
    simp only [List.foldl_cons]
    by_cases hpl : pl.getD a false
    · rcases ih ((trainUnsupLayer q.1 a).1, q.2 ++ (trainUnsupLayer q.1 a).2) with h | h <;>
        simp only [hpl, if_true] <;> rw [h] <;> exact Or.inr rfl
    · simp only [hpl, if_false]
      exact ih q

/-- The scalar fields preserved by a trainer-state fold whose step only
rewrites the flag functions. -/
def scalarFields (s : TrSt) :
    Nat × Bool × MachineSel × CritSel × Bool × Bool × Bool :=
  (s.nHidden, s.noisy, s.machine, s.crit, s.outPB, s.layerwiseTraining, s.topKTraining)

/-- A fold whose step preserves the scalar fields preserves them overall. -/
theorem foldl_scalarFields {α : Type} (step : TrSt → α → TrSt)
    (hstep : ∀ s a, scalarFields (step s a) = scalarFields s) :
    ∀ (l : List α) (s : TrSt), scalarFields (l.foldl step s) = scalarFields s := by
  intro l
  induction l with
  | nil => intro s; rfl
  | cons a l ih => intro s; rw [List.foldl_cons, ih, hstep]

theorem selFlagStep_scalar (pl : List Bool) (pb : Bool) (s : TrSt) (i : Nat) :
    scalarFields (selFlagStep pl pb s i) = scalarFields s := by
  unfold selFlagStep
  dsimp only
  split <;> rfl

theorem selRestoreStep_scalar (s : TrSt) (i : Nat) :
    scalarFields (selRestoreStep s i) = scalarFields s := by
  unfold selRestoreStep
  dsimp only
  split <;> rfl

/-- After the restore fold, every encoder flag with index in the fold list
(or already clear) is clear. -/
theorem selRestore_encPB (l : List Nat) (s : TrSt) (j : Nat)
    (h : j ∈ l ∨ s.encPB j = false) :
    (l.foldl selRestoreStep s).encPB j = false := by
  induction l generalizing s with
  | nil => simpa using h.resolve_left (by simp)
  | cons a l ih =>
    rw [List.foldl_cons]
    refine ih _ ?_
    have henc : (selRestoreStep s a).encPB = updF s.encPB a false := by
      unfold selRestoreStep
      by_cases hn : s.noisy <;> simp [hn]
    rcases h with h | h
    · rcases List.mem_cons.mp h with h | h
      · right; rw [henc, h]; simp [updF]
      · left; exact h
    · right; rw [henc]; unfold updF; split <;> simp [h]

/-- After the restore fold, every autoencoder flag with index in the fold
list (or already clear) is clear, in the noisy case. -/
theorem selRestore_aePB (l : List Nat) (s : TrSt) (j : Nat)
    (hn : s.noisy = true) (h : j ∈ l ∨ s.aePB j = false) :
    (l.foldl selRestoreStep s).aePB j = false := by
  induction l generalizing s with
  | nil => simpa using h.resolve_left (by simp)
  | cons a l ih =>
    rw [List.foldl_cons]
    have hn2 : (selRestoreStep s a).noisy = s.noisy := by
      have := selRestoreStep_scalar s a
      simp [scalarFields] at this
      exact this.2.1
    have hae : (selRestoreStep s a).aePB = updF s.aePB a false := by
      unfold selRestoreStep
      simp [hn]
    refine ih _ (hn2.trans hn) ?_
    rcases h with h | h
    · rcases List.mem_cons.mp h with h | h
      · right; rw [hae, h]; simp [updF]
      · left; exact h
    · right; rw [hae]; unfold updF; split <;> simp [h]

/-- In the non-noisy case the restore fold leaves the autoencoder flags
untouched. -/
theorem selRestore_aePB_nonNoisy (l : List Nat) (s : TrSt) (hn : s.noisy = false) :
    (l.foldl selRestoreStep s).aePB = s.aePB := by
  induction l generalizing s with
  | nil => rfl
  | cons a l ih =>
    rw [List.foldl_cons]
    have hn2 : (selRestoreStep s a).noisy = s.noisy := by
      have := selRestoreStep_scalar s a
      simp [scalarFields, Prod.ext_iff] at this
      exact this.2.1
    have hae : (selRestoreStep s a).aePB = s.aePB := by
      unfold selRestoreStep
      simp [hn]
    rw [ih _ (hn2.trans hn), hae]

/-- In the non-noisy case the flag fold leaves the autoencoder flags
untouched. -/
theorem selFlag_aePB_nonNoisy (pl : List Bool) (pb : Bool) (l : List Nat) (s : TrSt)
    (hn : s.noisy = false) :
    (l.foldl (selFlagStep pl pb) s).aePB = s.aePB := by
  induction l generalizing s with
  | nil => rfl
  | cons a l ih =>
    rw [List.foldl_cons]
    have hn2 : (selFlagStep pl pb s a).noisy = s.noisy := by
      have := selFlagStep_scalar pl pb s a
      simp [scalarFields, Prod.ext_iff] at this
      exact this.2.1
    have hae : (selFlagStep pl pb s a).aePB = s.aePB := by
      unfold selFlagStep
      dsimp only
      rw [if_neg]
      simp [hn]
    rw [ih _ (hn2.trans hn), hae]


/-- Running the restore loop of `TrainSelectiveUnsup` and then restoring
the supervised pair lands in the default configuration, provided the other
flags were already clear (and, in the non-noisy case, the autoencoder flags
too, since the restore loop then does not touch them). -/
theorem selRestore_default (t : TrSt)
    (ho : t.outPB = false) (hl : t.layerwiseTraining = false)
    (ht : t.topKTraining = false)
    (ha : t.noisy = false → ∀ i < t.nHidden, t.aePB i = false) :
    IsDefault { selRestoreLoop t with machine := .sae, crit := .sup } := by
  have hsc : scalarFields (selRestoreLoop t) = scalarFields t :=
    foldl_scalarFields _ selRestoreStep_scalar _ t
  simp only [scalarFields, Prod.ext_iff] at hsc
  obtain ⟨hn, hns, hmm, hcc, hob, hlb, htb⟩ := hsc
  refine ⟨rfl, rfl, ?_, ?_, ?_, ?_, ?_⟩
  · intro i hi
    have hi2 : i < t.nHidden := by
      rw [← hn]; exact hi
    show (selRestoreLoop t).encPB i = false
    exact selRestore_encPB _ t i (Or.inl (List.mem_range.mpr hi2))
  · intro i hi
    have hi2 : i < t.nHidden := by
      rw [← hn]; exact hi
    show (selRestoreLoop t).aePB i = false
    by_cases hno : t.noisy = true
    · exact selRestore_aePB _ t i hno (Or.inl (List.mem_range.mpr hi2))
    · have hnf : t.noisy = false := by simpa using hno
      show ((List.range t.nHidden).foldl selRestoreStep t).aePB i = false
      rw [selRestore_aePB_nonNoisy _ t hnf]
      exact ha hnf i hi2
  · exact hob.trans ho
  · exact hlb.trans hl
  · exact htb.trans ht

/-- Claim C8: starting from the trainer's default configuration, every
training-phase entry point terminates back in the default configuration:
the active machine is the full supervised StackedAutoencoder, the active
criterion is the supervised criterion, and no partial-backprop or phase
flag is left set. -/
theorem claim_C8 (s : TrSt) (hs : IsDefault s) (p : Phase) :
    IsDefault (runPhase p s).1 := by
  obtain ⟨hm, hc, hePB, haPB, ho, hl, ht⟩ := hs
  cases p with
  | layerwise =>
    unfold runPhase trainUnsupLayerwise
    dsimp only
    rcases layerwiseFold_state (List.range s.nHidden)
        ({ s with layerwiseTraining := true }, []) with h | h <;> rw [h]
    · exact ⟨hm, hc, hePB, haPB, ho, rfl, ht⟩
    · exact ⟨rfl, rfl, hePB, haPB, ho, rfl, ht⟩
  | selectiveLayerwise pl =>
    unfold runPhase trainSelectiveUnsupLayerwise
    dsimp only
    rcases selLayerwiseFold_state pl (List.range s.nHidden)
        ({ s with layerwiseTraining := true }, []) with h | h <;> rw [h]
    · exact ⟨hm, hc, hePB, haPB, ho, rfl, ht⟩
    · exact ⟨rfl, rfl, hePB, haPB, ho, rfl, ht⟩
  | selective pl pb =>
    unfold runPhase trainSelectiveUnsup
    dsimp only
    have hsc1 : scalarFields (selFlagLoop s pl pb) = scalarFields s :=
      foldl_scalarFields _ (selFlagStep_scalar pl pb) _ s
    simp only [scalarFields, Prod.ext_iff] at hsc1
    obtain ⟨hn1, hns1, _, _, ho1, hl1, ht1⟩ := hsc1
    refine selRestore_default _ (ho1.trans ho) (hl1.trans hl) (ht1.trans ht) ?_
    intro hnf i hi
    dsimp only at hnf hi
    show ((List.range s.nHidden).foldl (selFlagStep pl pb) s).aePB i = false
    rw [selFlag_aePB_nonNoisy pl pb _ s (hns1.symm.trans hnf)]
    refine haPB i ?_
    rw [← hn1]
    exact hi
  | unsupNotOutput =>
    exact ⟨rfl, rfl, hePB, haPB, ho, hl, ht⟩
  | unsupOnly =>
    exact ⟨rfl, rfl, hePB, haPB, rfl, hl, ht⟩
  | supUnsup w =>
    exact ⟨rfl, rfl, hePB, haPB, ho, hl, ht⟩
  | topK k =>
    exact ⟨rfl, rfl, hePB, haPB, ho, hl, rfl⟩

/-- Witness for C8: the concrete default state over two noisy hidden layers
is default, and remains default after a selective phase (the entry point
that toggles the most flags). -/
theorem claim_C8_witness :
    IsDefault sampleSt ∧
    IsDefault (runPhase (.selective [true, false] true) sampleSt).1 :=
  ⟨by decide, claim_C8 sampleSt (by decide) (.selective [true, false] true)⟩

/-- Pointwise value of the zipWith accumulation used by `hessStep`, for
same-length lists and an update function that fixes 0. -/
theorem zipWith_acc_getD (f : ℚ → ℚ) (hf : f 0 = 0) :
    ∀ (a b : List ℚ), a.length = b.length → ∀ j : Nat,
      (a.zipWith (fun s v => s + f v) b).getD j 0 = a.getD j 0 + f (b.getD j 0) := by
  intro a
  induction a with
  | nil =>
    intro b hb j
    have : b = [] := List.eq_nil_of_length_eq_zero hb.symm
    subst this
    simp [hf]
  | cons x a ih =>
    intro b hb j
    cases b with
    | nil => simp at hb
    | cons y b =>
      cases j with
      | zero => simp
      | succ j =>
        simp only [List.zipWith_cons_cons, List.getD_cons_succ]
        exact ih b (by simpa using hb) j

/-- Through the measurement fold, the running `sumX` has the pointwise
value `initial + column sum`, and its length is preserved. -/
theorem hessFold_sumX :
    ∀ (samples : List (List ℚ)) (acc : HessAcc) (n : Nat),
      acc.sumX.length = n → (∀ g ∈ samples, g.length = n) →
      (samples.foldl hessStep acc).sumX.length = n ∧
      ∀ j : Nat, (samples.foldl hessStep acc).sumX.getD j 0 =
        samples.foldl (fun s g => s + g.getD j 0) (acc.sumX.getD j 0) := by
  intro samples
  induction samples with
  | nil => intro acc n h _; exact ⟨h, fun j => rfl⟩
  | cons g rest ih =>
    intro acc n h hg
    have hlen : (hessStep acc g).sumX.length = n := by
      simp [hessStep, List.length_zipWith, h, hg g (by simp)]
    have hstep : ∀ j : Nat, (hessStep acc g).sumX.getD j 0 = acc.sumX.getD j 0 + g.getD j 0 := by
      intro j
      exact zipWith_acc_getD (fun v => v) rfl acc.sumX g
        (by rw [h, hg g (by simp)]) j
    obtain ⟨h1, h2⟩ := ih (hessStep acc g) n hlen (fun x hx => hg x (by simp [hx]))
    refine ⟨h1, fun j => ?_⟩
    simp only [List.foldl_cons]
    rw [h2 j, hstep j]

/-- As `hessFold_sumX`, for the running sum of squares. -/
theorem hessFold_sumX2 :
    ∀ (samples : List (List ℚ)) (acc : HessAcc) (n : Nat),
      acc.sumX2.length = n → (∀ g ∈ samples, g.length = n) →
      (samples.foldl hessStep acc).sumX2.length = n ∧
      ∀ j : Nat, (samples.foldl hessStep acc).sumX2.getD j 0 =
        samples.foldl (fun s g => s + g.getD j 0 * g.getD j 0) (acc.sumX2.getD j 0) := by
  intro samples
  induction samples with
  | nil => intro acc n h _; exact ⟨h, fun j => rfl⟩
  | cons g rest ih =>
    intro acc n h hg
    have hlen : (hessStep acc g).sumX2.length = n := by
      simp [hessStep, List.length_zipWith, h, hg g (by simp)]
    have hstep : ∀ j : Nat, (hessStep acc g).sumX2.getD j 0 =
        acc.sumX2.getD j 0 + g.getD j 0 * g.getD j 0 := by
      intro j
      exact zipWith_acc_getD (fun v => v * v) (by ring) acc.sumX2 g
        (by rw [h, hg g (by simp)]) j
    obtain ⟨h1, h2⟩ := ih (hessStep acc g) n hlen (fun x hx => hg x (by simp [hx]))
    refine ⟨h1, fun j => ?_⟩
    simp only [List.foldl_cons]
    rw [h2 j, hstep j]

/-- The anomaly log accumulated by the measurement fold is exactly the
per-example over-threshold entries, in order. -/
theorem hessFold_log :
    ∀ (samples : List (List ℚ)) (acc : HessAcc),
      (samples.foldl hessStep acc).anomalyLog =
        acc.anomalyLog ++ samples.flatMap (fun g => g.enum.filter (fun p => 10 < |p.2|)) := by
  intro samples
  induction samples with
  | nil => intro acc; simp
  | cons g rest ih =>
    intro acc
    rw [List.foldl_cons, ih]
    simp [hessStep, List.flatMap_cons, List.append_assoc]

/-- The strict-max update of the source equals `max`. -/
theorem strictMax_eq_max (m v : ℚ) : (if m < v then v else m) = max m v := by
  rcases lt_or_ge m v with h | h
  · simp [h, max_eq_right h.le]
  · simp [not_lt.mpr h, max_eq_left h]

/-- The variance/max phase of `EvalHessian` computes the specification-side
maximum per-parameter variance. -/
theorem hessMaxVar_spec (samples : List (List ℚ)) (n : Nat)
    (hs : ∀ g ∈ samples, g.length = n) :
    hessMaxVarOf samples.length
        (samples.foldl hessStep ⟨List.replicate n 0, List.replicate n 0, []⟩).sumX
        (samples.foldl hessStep ⟨List.replicate n 0, List.replicate n 0, []⟩).sumX2 =
      maxVarSpec samples n := by
  obtain ⟨hxl, hx⟩ := hessFold_sumX samples ⟨List.replicate n 0, List.replicate n 0, []⟩ n
    (by simp) hs
  obtain ⟨hx2l, hx2⟩ := hessFold_sumX2 samples ⟨List.replicate n 0, List.replicate n 0, []⟩ n
    (by simp) hs
  have hvs : (List.zipWith
      (fun x x2 => x2 / (samples.length : ℚ) - x / (samples.length : ℚ) * (x / (samples.length : ℚ)))
      (samples.foldl hessStep ⟨List.replicate n 0, List.replicate n 0, []⟩).sumX
      (samples.foldl hessStep ⟨List.replicate n 0, List.replicate n 0, []⟩).sumX2) =
      (List.range n).map (fun j => colVar samples j) := by
    apply List.ext_getElem
    · simp [List.length_zipWith, hxl, hx2l]
    · intro j h1 h2
      have hj : j < n := by
        simp [List.length_zipWith, hxl, hx2l] at h1
        exact h1
      rw [List.getElem_zipWith, List.getElem_map, List.getElem_range]
      have e1 : (samples.foldl hessStep ⟨List.replicate n 0, List.replicate n 0, []⟩).sumX[j] =
          colSum samples j := by
        rw [← List.getD_eq_getElem _ 0, hx j]
        simp [colSum, List.getElem?_getD_replicate_default_eq]
      have e2 : (samples.foldl hessStep ⟨List.replicate n 0, List.replicate n 0, []⟩).sumX2[j] =
          colSum2 samples j := by
        rw [← List.getD_eq_getElem _ 0, hx2 j]
        simp [colSum2, List.getElem?_getD_replicate_default_eq]
      rw [e1, e2]
      rfl
  unfold hessMaxVarOf maxVarSpec
  rw [hvs, List.foldl_map]
  apply List.foldl_ext
  intro m j _
  exact strictMax_eq_max m (colVar samples j)

/-- Claim C9: `EvalHessian` logs every parameter whose per-example gradient
magnitude exceeds the 10.0 threshold as a diagnostic entry, but the
evaluation is unaffected by such values: for every sample set — anomalous
or not — it still returns the inverse of the maximum per-parameter gradient
variance. -/
theorem claim_C9 (samples : List (List ℚ)) (n : Nat)
    (hs : ∀ g ∈ samples, g.length = n) :
    (evalHessianRun samples n).2 = 1 / maxVarSpec samples n ∧
    (evalHessianRun samples n).1.anomalyLog =
      samples.flatMap (fun g => g.enum.filter (fun p => 10 < |p.2|)) := by
  constructor
  · show 1 / hessMaxVarOf samples.length _ _ = 1 / maxVarSpec samples n
    rw [hessMaxVar_spec samples n hs]
  · show (samples.foldl hessStep _).anomalyLog = _
    rw [hessFold_log]
    rfl

/-- Witness for C9 at samples containing an anomalous gradient (12 > 10):
the anomaly is logged, yet the returned value is still the inverse max
variance (here 1/36). -/
theorem claim_C9_witness :
    (∀ g ∈ [[(12 : ℚ), 0], [0, 2]], g.length = 2) ∧
    ((evalHessianRun [[(12 : ℚ), 0], [0, 2]] 2).2 = 1 / maxVarSpec [[(12 : ℚ), 0], [0, 2]] 2 ∧
     (evalHessianRun [[(12 : ℚ), 0], [0, 2]] 2).1.anomalyLog =
       [[(12 : ℚ), 0], [0, 2]].flatMap (fun g => g.enum.filter (fun p => 10 < |p.2|))) :=
  ⟨by decide, claim_C9 [[(12 : ℚ), 0], [0, 2]] 2 (by decide)⟩

/-- In a field, `(1/a) / (1/b) = b / a`, including the zero cases. -/
theorem one_div_div_one_div (a b : ℚ) : (1 / a) / (1 / b) = b / a := by
  rw [div_div_eq_mul_div, div_one, one_div_mul_eq_div]

/-- Claim C6, amended: when adaptive reweighting is enabled and the epoch
counter is nonzero, `IterInitialize` sets the supervised weight to 1.0 and
each unsupervised criterion's weight to
`sqrt(supervised max variance / that criterion's max variance)`, where each
variance is the per-parameter gradient variance of the maximum-variance
parameter over the sample set.  (At epoch 0 the weights are left
unchanged — see the counterexample.) -/
theorem claim_C6_amended (epoch : Nat) (hep : epoch ≠ 0) (w : List WVal) (N : Nat)
    (supS : List (List ℚ)) (supN : Nat)
    (unsupS : Nat → List (List ℚ)) (unsupN : Nat → Nat)
    (hsup : ∀ g ∈ supS, g.length = supN)
    (hunsup : ∀ i < N, ∀ g ∈ unsupS i, g.length = unsupN i) :
    iterInitializeWeights true epoch w N supS supN unsupS unsupN =
      WVal.ratQ 1 :: (List.range N).map (fun i =>
        WVal.sqrtOf (maxVarSpec supS supN / maxVarSpec (unsupS i) (unsupN i))) := by
  unfold iterInitializeWeights
  rw [if_pos ⟨rfl, hep⟩]
  refine congrArg (WVal.ratQ 1 :: ·) (List.map_congr_left ?_)
  intro i hi
  have hres : ∀ (ss : List (List ℚ)) (m : Nat), (∀ g ∈ ss, g.length = m) →
      evalHessianRes ss m = 1 / maxVarSpec ss m := by
    intro ss m hm
    show 1 / hessMaxVarOf ss.length _ _ = _
    rw [hessMaxVar_spec ss m hm]
  rw [hres supS supN hsup, hres (unsupS i) (unsupN i) (hunsup i (List.mem_range.mp hi)),
    one_div_div_one_div]

/-- Witness for C6 (amended) at epoch 1, one hidden layer, supervised
samples `[[2],[0]]` (max variance 1) and unsupervised samples `[[4],[0]]`
(max variance 4): the weights become `[1, sqrt(1/4)]`. -/
theorem claim_C6_witness :
    ((1 : Nat) ≠ 0 ∧
      (∀ g ∈ [[(2 : ℚ)], [0]], g.length = 1) ∧
      (∀ i < 1, ∀ g ∈ [[(4 : ℚ)], [0]], g.length = 1)) ∧
    iterInitializeWeights true 1 [] 1 [[(2 : ℚ)], [0]] 1
        (fun _ => [[(4 : ℚ)], [0]]) (fun _ => 1) =
      WVal.ratQ 1 :: (List.range 1).map (fun i =>
        WVal.sqrtOf (maxVarSpec [[(2 : ℚ)], [0]] 1 /
          maxVarSpec ((fun _ => [[(4 : ℚ)], [0]]) i) ((fun _ => 1) i))) :=
  ⟨⟨by decide, by decide, by decide⟩,
    claim_C6_amended 1 (by decide) [] 1 [[(2 : ℚ)], [0]] 1
      (fun _ => [[(4 : ℚ)], [0]]) (fun _ => 1) (by decide)
      (fun i _ => (by decide : ∀ g ∈ [[(4 : ℚ)], [0]], g.length = 1))⟩

/-- Counterexample to claim C6 as stated: with adaptive reweighting enabled,
at the first iteration (epoch counter 0) `IterInitialize` does not touch the
weights at all — here they stay `[0, 0]` although the claim mandates the
supervised weight be normalised to 1.0 and the unsupervised weight be set to
the variance-ratio square root. -/
theorem claim_C6_counterexample :
    iterInitializeWeights true 0 [WVal.ratQ 0, WVal.ratQ 0] 1 [[(2 : ℚ)], [0]] 1
        (fun _ => [[(4 : ℚ)], [0]]) (fun _ => 1) = [WVal.ratQ 0, WVal.ratQ 0] ∧
    ([WVal.ratQ 0, WVal.ratQ 0] : List WVal) ≠
      WVal.ratQ 1 :: (List.range 1).map (fun i =>
        WVal.sqrtOf (maxVarSpec [[(2 : ℚ)], [0]] 1 /
          maxVarSpec ((fun _ => [[(4 : ℚ)], [0]]) i) ((fun _ => 1) i))) := by
  constructor
  · simp [iterInitializeWeights]
  · decide

/-- Closed form of the layers produced by `k` iterations of the encoder
loop (`uStep`): encoder `i` in its own layer, with the input handle joining
layer 0 when requested. -/
def uClosed (wh : Bool) (k : Nat) : List (List Mod) :=
  (List.range k).map (fun i =>
    if i = 0 then Mod.enc 0 :: (if wh then [Mod.inputHandle] else []) else [Mod.enc i])

/-- Closed form of the links produced by `k` iterations of the encoder
loop: the encoder chain. -/
def uLinks (k : Nat) : List (Mod × Mod) :=
  (List.range (k - 1)).map (fun j => (Mod.enc (j+1), Mod.enc j))

/-- The `lastAdded` marker after `k` iterations of the encoder loop. -/
def uLast (wh : Bool) (k : Nat) : Option Mod :=
  if k = 0 then none
  else if k = 1 then (if wh then some Mod.inputHandle else some (Mod.enc 0))
  else some (Mod.enc (k-1))

theorem uClosed_succ (wh : Bool) (k : Nat) (hk : 1 ≤ k) :
    uClosed wh (k+1) = uClosed wh k ++ [[Mod.enc k]] := by
  unfold uClosed
  rw [List.range_succ, List.map_append]
  have hne : ¬ k = 0 := by omega
  simp [hne]

theorem uLinks_succ (k : Nat) (hk : 1 ≤ k) :
    uLinks (k+1) = uLinks k ++ [(Mod.enc k, Mod.enc (k-1))] := by
  unfold uLinks
  have h1 : k + 1 - 1 = (k - 1) + 1 := by omega
  rw [h1, List.range_succ, List.map_append]
  have h2 : k - 1 + 1 = k := by omega
  simp [h2]

/-- The encoder loop from the empty machine yields exactly the closed-form
layers, links and marker. -/
theorem uLoop_closed (wh : Bool) : ∀ k : Nat,
    (List.range k).foldl (uStep wh) emptyCM = ⟨uClosed wh k, [], uLinks k, uLast wh k⟩ := by
  intro k
  induction k with
  | zero => rfl
  | succ k ih =>
    rw [List.range_succ, List.foldl_append, ih]
    simp only [List.foldl_cons, List.foldl_nil]
    cases k with
    | zero => cases wh <;> rfl
    | succ k2 =>
      have hc := uClosed_succ wh (k2+1) (by omega)
      have hl := uLinks_succ (k2+1) (by omega)
      unfold uStep
      dsimp only
      rw [if_pos (Nat.succ_pos k2), if_neg (by simp)]
      simp [addMachine, connectOn, addLayer, hc, hl, uLast]

/-- Below the last index the noisy unsup encoder-loop body coincides with
the uniform encoder-loop body (with the input handle requested). -/
theorem unsupEncStep_eq_uStep (N : Nat) (g : CM) (i : Nat) (hi : i < N - 1) :
    unsupEncStep true N g i = uStep true g i := by
  unfold unsupEncStep uStep
  rcases Nat.eq_zero_or_pos i with h0 | h0
  · subst h0
    simp [hi]
  · have hne : ¬ i = 0 := by omega
    simp [hi, h0, hne]

/-- The branch module added by `AddUnsupMachines` (and the selective
decoder loop) for layer `i`. -/
def branchMod (noisy : Bool) (i : Nat) : Mod :=
  if noisy then .ae i else .dec i

/-- The producer that branch `i` is connected on, in noisy mode. -/
def noisyBranchSrc (i : Nat) : Mod :=
  if i = 0 then .inputHandle else .enc (i-1)


/-- The noisy branch fold leaves the closed layers untouched. -/
theorem unsupBranchFold_closed (l : List Nat) : ∀ g : CM,
    (l.foldl (unsupBranchStep true) g).closed = g.closed := by
  induction l with
  | nil => intro g; rfl
  | cons a l ih =>
    intro g
    rw [List.foldl_cons, ih]
    unfold unsupBranchStep
    rcases Nat.eq_zero_or_pos a with h0 | h0
    · subst h0; simp [addMachine, connectOn]
    · simp [addMachine, connectOn, h0]

/-- The noisy branch fold appends one autoencoder per index to the current
layer. -/
theorem unsupBranchFold_current (l : List Nat) : ∀ g : CM,
    (l.foldl (unsupBranchStep true) g).current = g.current ++ l.map Mod.ae := by
  induction l with
  | nil => intro g; simp
  | cons a l ih =>
    intro g
    rw [List.foldl_cons, ih]
    unfold unsupBranchStep
    rcases Nat.eq_zero_or_pos a with h0 | h0
    · subst h0; simp [addMachine, connectOn]
    · simp [addMachine, connectOn, h0]

/-- The noisy branch fold wires each autoencoder onto its producer: the
input handle for layer 0, the encoder below otherwise. -/
theorem unsupBranchFold_links (l : List Nat) : ∀ g : CM,
    (l.foldl (unsupBranchStep true) g).links =
      g.links ++ l.map (fun i => (Mod.ae i, noisyBranchSrc i)) := by
  induction l with
  | nil => intro g; simp
  | cons a l ih =>
    intro g
    rw [List.foldl_cons, ih]
    unfold unsupBranchStep noisyBranchSrc
    rcases Nat.eq_zero_or_pos a with h0 | h0
    · subst h0; simp [addMachine, connectOn]
    · have hne : ¬ a = 0 := by omega
      simp [addMachine, connectOn, h0, hne]

/-- Module set of a built machine in terms of the pre-build state. -/
theorem cmMods_buildCM (g : CM) : cmMods (buildCM g) = g.closed.flatten ++ g.current := by
  unfold buildCM cmMods addLayer
  by_cases h : g.current.isEmpty
  · rw [if_pos h]
    have : g.current = [] := List.isEmpty_iff.mp h
    simp [this]
  · rw [if_neg h]
    simp

/-- Links of a built machine. -/
theorem links_buildCM (g : CM) : (buildCM g).links = g.links := by
  unfold buildCM
  by_cases h : g.current.isEmpty
  · rw [if_pos h]
  · rw [if_neg h]; rfl

/-- Closed layers of a built machine with a nonempty current layer. -/
theorem closed_buildCM_of_ne (g : CM) (h : ¬ g.current.isEmpty) :
    (buildCM g).closed = g.closed ++ [g.current] := by
  unfold buildCM
  rw [if_neg h]
  rfl

/-- For `N ≥ 2` (noisy), the encoder loop of `BuildUnsupMachine` is the
uniform encoder loop run `N-1` times: the last index adds nothing. -/
theorem unsupEncLoop_eq (N : Nat) (hN : 2 ≤ N) :
    (List.range N).foldl (unsupEncStep true N) emptyCM =
      ⟨uClosed true (N-1), [], uLinks (N-1), uLast true (N-1)⟩ := by
  have hsplit : List.range N = List.range (N-1) ++ [N-1] := by
    conv_lhs => rw [(by omega : N = (N-1) + 1)]
    rw [List.range_succ]
  rw [hsplit, List.foldl_append]
  have hext : (List.range (N-1)).foldl (unsupEncStep true N) emptyCM =
      (List.range (N-1)).foldl (uStep true) emptyCM := by
    apply List.foldl_ext
    intro g i hi
    exact unsupEncStep_eq_uStep N g i (List.mem_range.mp hi)
  rw [hext, uLoop_closed]
  simp only [List.foldl_cons, List.foldl_nil]
  unfold unsupEncStep
  have h1 : ¬ (N - 1 < N - 1) := by omega
  have h2 : ¬ (N - 1 = 0) := by omega
  simp [h1, h2]

/-- Membership in the flattened uniform encoder layers. -/
theorem mem_uClosed (wh : Bool) (k : Nat) (m : Mod) :
    m ∈ (uClosed wh k).flatten ↔
      ((∃ i < k, m = Mod.enc i) ∨ (wh = true ∧ 1 ≤ k ∧ m = Mod.inputHandle)) := by
  unfold uClosed
  simp only [List.mem_flatten, List.mem_map, List.mem_range]
  constructor
  · rintro ⟨l, ⟨i, hik, rfl⟩, hm⟩
    by_cases h0 : i = 0
    · subst h0
      simp only [if_pos rfl] at hm
      rcases List.mem_cons.mp hm with h | h
      · exact Or.inl ⟨0, hik, h⟩
      · cases wh with
        | false => simp at h
        | true =>
          simp at h
          exact Or.inr ⟨rfl, by omega, h⟩
    · rw [if_neg h0] at hm
      simp at hm
      exact Or.inl ⟨i, hik, hm⟩
  · rintro (⟨i, hik, rfl⟩ | ⟨hwh, hk, rfl⟩)
    · by_cases h0 : i = 0
      · subst h0
        exact ⟨_, ⟨0, hik, rfl⟩, by simp⟩
      · exact ⟨[Mod.enc i], ⟨i, hik, by rw [if_neg h0]⟩, by simp⟩
    · subst hwh
      exact ⟨_, ⟨0, by omega, rfl⟩, by simp⟩

/-- The built unsupervised machine for `N ≥ 2` noisy layers: module set,
links and layering in closed form. -/
theorem unsupCM_noisy_parts (N : Nat) (hN : 2 ≤ N) :
    cmMods (unsupCM true N) = (uClosed true (N-1)).flatten ++ (List.range N).map Mod.ae ∧
    (unsupCM true N).links =
      uLinks (N-1) ++ (List.range N).map (fun i => (Mod.ae i, noisyBranchSrc i)) ∧
    (unsupCM true N).closed = uClosed true (N-1) ++ [(List.range N).map Mod.ae] := by
  unfold unsupCM addUnsupMachines
  rw [unsupEncLoop_eq N hN]
  have hcl := unsupBranchFold_closed (List.range N)
    ⟨uClosed true (N-1), [], uLinks (N-1), uLast true (N-1)⟩
  have hcu := unsupBranchFold_current (List.range N)
    ⟨uClosed true (N-1), [], uLinks (N-1), uLast true (N-1)⟩
  have hli := unsupBranchFold_links (List.range N)
    ⟨uClosed true (N-1), [], uLinks (N-1), uLast true (N-1)⟩
  have hne : ¬ ((List.range N).foldl (unsupBranchStep true)
      ⟨uClosed true (N-1), [], uLinks (N-1), uLast true (N-1)⟩).current.isEmpty := by
    rw [List.isEmpty_iff, hcu]
    simp
    omega
  refine ⟨?_, ?_, ?_⟩
  · rw [cmMods_buildCM, hcl, hcu]
    simp
  · rw [links_buildCM, hli]
  · rw [closed_buildCM_of_ne _ hne, hcl, hcu]
    simp

/-- Claim C1: in noisy mode with `N ≥ 1` hidden layers the unsupervised
machine never contains `Encoder(N-1)` as a freestanding node, its backward
pass finds a consumer for every non-terminal node (no missing-consumer
fault), and in the boundary case `N = 1` the reconstruction path of the
single (dropped) encoder is still present: `autoencoders[0]` is in the
graph, its noisy encoder is among the leaves, and Encoder(0)'s parameter
group is referenced by the graph whether or not weights are tied. -/
theorem claim_C1 (N : Nat) (hN : 1 ≤ N) :
    Mod.enc (N-1) ∉ cmMods (unsupCM true N) ∧
    backwardOk (unsupCM true N) = true ∧
    (N = 1 →
      Mod.ae 0 ∈ cmMods (unsupCM true N) ∧
      Mod.nenc 0 ∈ cmLeaves true (unsupCM true N) ∧
      PG.encP 0 ∈ cmParams true true (unsupCM true N) ∧
      PG.encP 0 ∈ cmParams true false (unsupCM true N)) := by
  rcases Nat.lt_or_ge N 2 with h2 | h2
  · have h1 : N = 1 := by omega
    subst h1
    exact ⟨by decide, by decide, fun _ => ⟨by decide, by decide, by decide, by decide⟩⟩
  · obtain ⟨hm, hl, hc⟩ := unsupCM_noisy_parts N h2
    refine ⟨?_, ?_, fun h1 => absurd h1 (by omega)⟩
    · rw [hm]
      intro hmem
      rcases List.mem_append.mp hmem with h | h
      · rcases (mem_uClosed true (N-1) _).mp h with ⟨i, hik, he⟩ | ⟨_, _, he⟩
        · have : N - 1 = i := by injection he
          omega
        · simp at he
      · rcases List.mem_map.mp h with ⟨i, _, he⟩
        simp at he
    · unfold backwardOk
      rw [hc, hl, List.dropLast_concat, List.all_eq_true]
      intro m hmem
      rw [List.any_eq_true]
      rcases (mem_uClosed true (N-1) m).mp hmem with ⟨i, hik, he⟩ | ⟨_, _, he⟩
      · subst he
        refine ⟨(Mod.ae (i+1), noisyBranchSrc (i+1)), ?_, ?_⟩
        · apply List.mem_append_right
          exact List.mem_map.mpr ⟨i+1, List.mem_range.mpr (by omega), rfl⟩
        · simp [noisyBranchSrc]
      · subst he
        refine ⟨(Mod.ae 0, noisyBranchSrc 0), ?_, ?_⟩
        · apply List.mem_append_right
          exact List.mem_map.mpr ⟨0, List.mem_range.mpr (by omega), rfl⟩
        · simp [noisyBranchSrc]

/-- Witness for C1 at the boundary case `N = 1`. -/
theorem claim_C1_witness :
    (1 ≤ 1) ∧
    (Mod.enc 0 ∉ cmMods (unsupCM true 1) ∧
     backwardOk (unsupCM true 1) = true ∧
     (1 = 1 →
       Mod.ae 0 ∈ cmMods (unsupCM true 1) ∧
       Mod.nenc 0 ∈ cmLeaves true (unsupCM true 1) ∧
       PG.encP 0 ∈ cmParams true true (unsupCM true 1) ∧
       PG.encP 0 ∈ cmParams true false (unsupCM true 1))) :=
  ⟨by decide, claim_C1 1 (by decide)⟩

/-- Recursive form of `index_topmost_trained` over the first `n` layers. -/
def topAux (pl : List Bool) : Nat → Int
  | 0 => -1
  | n+1 => if pl.getD n false then (n : Int) else topAux pl n

theorem topmostIdx_eq_topAux (pl : List Bool) : topmostIdx pl = topAux pl pl.length := by
  unfold topmostIdx
  generalize pl.length = n
  induction n with
  | zero => rfl
  | succ n ih =>
    rw [List.range_succ, List.foldl_append, ih]
    simp [topAux]

theorem topAux_bounds (pl : List Bool) (n : Nat) :
    -1 ≤ topAux pl n ∧ topAux pl n < (n : Int) := by
  induction n with
  | zero => simp [topAux]
  | succ n ih =>
    unfold topAux
    split
    · constructor <;> omega
    · obtain ⟨h1, h2⟩ := ih
      constructor <;> omega

theorem topAux_ge (pl : List Bool) (n j : Nat) (hj : j < n)
    (h : pl.getD j false = true) : (j : Int) ≤ topAux pl n := by
  induction n with
  | zero => omega
  | succ n ih =>
    unfold topAux
    rcases Nat.lt_or_ge j n with hlt | hge
    · split
      · have := (topAux_bounds pl n).2
        omega
      · exact ih hlt
    · have hjn : j = n := by omega
      subst hjn
      rw [if_pos h]

/-- An index at which the inclusion list reads true is a real index. -/
theorem getD_true_lt (pl : List Bool) (j : Nat) (h : pl.getD j false = true) :
    j < pl.length := by
  by_contra hge
  rw [List.getD_eq_default _ _ (by omega)] at h
  exact Bool.false_ne_true h

/-- A true entry never exceeds the topmost trained index. -/
theorem topmostIdx_ge (pl : List Bool) (j : Nat) (h : pl.getD j false = true) :
    (j : Int) ≤ topmostIdx pl := by
  rw [topmostIdx_eq_topAux]
  exact topAux_ge pl pl.length j (getD_true_lt pl j h) h

theorem topmostIdx_bounds (pl : List Bool) :
    -1 ≤ topmostIdx pl ∧ topmostIdx pl < (pl.length : Int) := by
  rw [topmostIdx_eq_topAux]
  exact topAux_bounds pl pl.length

/-- `AddEncodersUpToIncluded` from the empty machine, in closed form. -/
theorem addEncUpTo_empty (idx : Int) (wh : Bool) :
    addEncodersUpToIncluded emptyCM idx wh =
      if idx < 0 ∧ wh = true then ⟨[[Mod.inputHandle]], [], [], some Mod.inputHandle⟩
      else ⟨uClosed wh (idx+1).toNat, [], uLinks (idx+1).toNat, uLast wh (idx+1).toNat⟩ := by
  unfold addEncodersUpToIncluded
  rw [uLoop_closed]
  by_cases h : idx < 0 ∧ wh = true
  · rw [if_pos (by simpa using h), if_pos h]
    have h0 : (idx+1).toNat = 0 := by omega
    rw [h0]
    rfl
  · rw [if_neg (by simpa using h), if_neg h]

/-- Membership in the encoder part produced by `AddEncodersUpToIncluded`:
the encoders with index at most `idx`, plus the input handle exactly when
it was requested. -/
theorem mem_addEncUpTo (idx : Int) (wh : Bool) (m : Mod) :
    m ∈ (addEncodersUpToIncluded emptyCM idx wh).closed.flatten ↔
      ((∃ i : Nat, (i : Int) ≤ idx ∧ m = Mod.enc i) ∨ (wh = true ∧ m = Mod.inputHandle)) := by
  rw [addEncUpTo_empty]
  by_cases h : idx < 0 ∧ wh = true
  · rw [if_pos h]
    show m ∈ [Mod.inputHandle] ++ [] ↔ _
    simp only [List.append_nil, List.mem_singleton]
    constructor
    · intro hm
      exact Or.inr ⟨h.2, hm⟩
    · rintro (⟨i, hi, rfl⟩ | ⟨_, rfl⟩)
      · omega
      · rfl
  · rw [if_neg h]
    show m ∈ (uClosed wh (idx+1).toNat).flatten ↔ _
    rw [mem_uClosed]
    constructor
    · rintro (⟨i, hi, rfl⟩ | ⟨hwh, hk, rfl⟩)
      · exact Or.inl ⟨i, by omega, rfl⟩
      · exact Or.inr ⟨hwh, rfl⟩
    · rintro (⟨i, hi, rfl⟩ | ⟨hwh, rfl⟩)
      · exact Or.inl ⟨i, by omega, rfl⟩
      · refine Or.inr ⟨hwh, ?_, rfl⟩
        have : ¬ idx < 0 := fun hlt => h ⟨hlt, hwh⟩
        omega

/-- The reconstruction branches added by the selective decoder loop over
the index list `l`. -/
def selBranchMods (noisy : Bool) (pl : List Bool) (l : List Nat) : List Mod :=
  l.flatMap (fun i => if pl.getD i false then [branchMod noisy i] else [])

theorem selBranchFold_closed (noisy : Bool) (pl : List Bool) (l : List Nat) :
    ∀ g : CM, (l.foldl (selBranchStep noisy pl) g).closed = g.closed := by
  induction l with
  | nil => intro g; rfl
  | cons a l ih =>
    intro g
    rw [List.foldl_cons, ih]
    unfold selBranchStep
    by_cases hp : pl.getD a false = true
    · rw [List.getD_eq_getElem?_getD] at hp
      cases noisy with
      | false => simp [hp, addMachine, connectOn]
      | true =>
        rcases Nat.eq_zero_or_pos a with h0 | h0
        · subst h0; simp [hp, addMachine, connectOn]
        · simp [hp, addMachine, connectOn, h0]
    · rw [List.getD_eq_getElem?_getD] at hp
      simp [hp]

theorem selBranchFold_current (noisy : Bool) (pl : List Bool) (l : List Nat) :
    ∀ g : CM, (l.foldl (selBranchStep noisy pl) g).current =
      g.current ++ selBranchMods noisy pl l := by
  induction l with
  | nil => intro g; simp [selBranchMods]
  | cons a l ih =>
    intro g
    rw [List.foldl_cons, ih]
    unfold selBranchStep
    have hbm : selBranchMods noisy pl (a :: l) =
        (if pl.getD a false then [branchMod noisy a] else []) ++ selBranchMods noisy pl l := by
      simp [selBranchMods]
    rw [hbm]
    by_cases hp : pl.getD a false = true
    · rw [List.getD_eq_getElem?_getD] at hp
      cases noisy with
      | false => simp [hp, addMachine, connectOn, branchMod, List.getD_eq_getElem?_getD]
      | true =>
        rcases Nat.eq_zero_or_pos a with h0 | h0
        · subst h0; simp [hp, addMachine, connectOn, branchMod, List.getD_eq_getElem?_getD]
        · simp [hp, addMachine, connectOn, branchMod, h0, List.getD_eq_getElem?_getD]
    · rw [List.getD_eq_getElem?_getD] at hp
      simp [hp, List.getD_eq_getElem?_getD]

/-- Membership in the selective reconstruction branches. -/
theorem mem_selBranchMods (noisy : Bool) (pl : List Bool) (l : List Nat) (m : Mod) :
    m ∈ selBranchMods noisy pl l ↔
      ∃ i ∈ l, pl.getD i false = true ∧ m = branchMod noisy i := by
  unfold selBranchMods
  rw [List.mem_flatMap]
  constructor
  · rintro ⟨i, hil, hm⟩
    by_cases hp : pl.getD i false = true
    · rw [if_pos hp] at hm
      simp at hm
      exact ⟨i, hil, hp, hm⟩
    · rw [if_neg hp] at hm
      simp at hm
  · rintro ⟨i, hil, hp, rfl⟩
    refine ⟨i, hil, ?_⟩
    rw [if_pos hp]
    simp

/-- The current layer of the encoder part is empty (every path ends with a
layer boundary). -/
theorem selEncPart_current (noisy : Bool) (pl : List Bool) :
    (selEncPart noisy pl).current = [] := by
  unfold selEncPart
  split
  · rw [addEncUpTo_empty]; split <;> rfl
  · split <;> (rw [addEncUpTo_empty]; split <;> rfl)

/-- Module set of the selective machine: the encoder part plus the included
reconstruction branches. -/
theorem selectiveCM_mods (noisy : Bool) (pl : List Bool) :
    cmMods (selectiveCM noisy pl) =
      (selEncPart noisy pl).closed.flatten ++
        selBranchMods noisy pl (List.range pl.length) := by
  unfold selectiveCM
  rw [cmMods_buildCM, selBranchFold_closed, selBranchFold_current, selEncPart_current]
  simp

/-- Membership in the encoder part of the selective machine. -/
theorem mem_selEncPart (noisy : Bool) (pl : List Bool) (m : Mod) :
    m ∈ (selEncPart noisy pl).closed.flatten ↔
      (if noisy = true then
        ((∃ i : Nat, (i : Int) ≤ topmostIdx pl - 1 ∧ m = Mod.enc i) ∨
          (pl.getD 0 false = true ∧ m = Mod.inputHandle))
      else (∃ i : Nat, (i : Int) ≤ topmostIdx pl ∧ m = Mod.enc i)) := by
  cases noisy with
  | false =>
    show m ∈ (addEncodersUpToIncluded emptyCM (topmostIdx pl) false).closed.flatten ↔ _
    rw [mem_addEncUpTo]
    simp
  | true =>
    by_cases hp0 : pl.getD 0 false = true
    · show m ∈ (if pl.getD 0 false = true
          then addEncodersUpToIncluded emptyCM (topmostIdx pl - 1) true
          else addEncodersUpToIncluded emptyCM (topmostIdx pl - 1) false).closed.flatten ↔ _
      rw [if_pos hp0, mem_addEncUpTo]
      rw [List.getD_eq_getElem?_getD] at hp0
      simp [hp0]
    · show m ∈ (if pl.getD 0 false = true
          then addEncodersUpToIncluded emptyCM (topmostIdx pl - 1) true
          else addEncodersUpToIncluded emptyCM (topmostIdx pl - 1) false).closed.flatten ↔ _
      rw [if_neg hp0, mem_addEncUpTo]
      rw [List.getD_eq_getElem?_getD] at hp0
      simp [hp0]

/-- Claim C7: the selective-subset builder adds freestanding encoders only
up to the highest included layer, attaches a reconstruction branch (decoder
in non-noisy mode, autoencoder in noisy mode) exactly for the included
layers, in noisy mode adds the pass-through input anchor exactly when layer
0 is included, and on the 3-hidden-layer topology with layers 0 and 1
included `Encoder(2)` appears neither among the graph's modules nor among
its expanded leaves. -/
theorem claim_C7 (noisy : Bool) (pl : List Bool) :
    (∀ j : Nat, Mod.enc j ∈ cmMods (selectiveCM noisy pl) → (j : Int) ≤ topmostIdx pl) ∧
    (∀ i : Nat, i < pl.length →
      (branchMod noisy i ∈ cmMods (selectiveCM noisy pl) ↔ pl.getD i false = true)) ∧
    (noisy = true → (Mod.inputHandle ∈ cmMods (selectiveCM noisy pl) ↔ pl.getD 0 false = true)) ∧
    (Mod.enc 2 ∉ cmMods (selectiveCM noisy [true, true, false]) ∧
     Mod.enc 2 ∉ cmLeaves noisy (selectiveCM noisy [true, true, false])) := by
  have hmods := selectiveCM_mods noisy pl
  refine ⟨?_, ?_, ?_, ?_⟩
  · intro j hj
    rw [hmods] at hj
    rcases List.mem_append.mp hj with h | h
    · have h2 := (mem_selEncPart noisy pl _).mp h
      cases noisy with
      | false =>
        simp only [if_neg (by simp : ¬ (false = true))] at h2
        obtain ⟨i, hi, he⟩ := h2
        have : j = i := by injection he
        omega
      | true =>
        simp only [if_pos rfl] at h2
        rcases h2 with ⟨i, hi, he⟩ | ⟨_, he⟩
        · have : j = i := by injection he
          have hb := (topmostIdx_bounds pl).1
          omega
        · simp at he
    · have h2 := (mem_selBranchMods noisy pl _ _).mp h
      obtain ⟨i, _, _, he⟩ := h2
      cases noisy <;> simp [branchMod] at he
  · intro i hi
    constructor
    · intro hmem
      rw [hmods] at hmem
      rcases List.mem_append.mp hmem with h | h
      · have h2 := (mem_selEncPart noisy pl _).mp h
        cases noisy with
        | false =>
          simp only [if_neg (by simp : ¬ (false = true))] at h2
          obtain ⟨i2, _, he⟩ := h2
          simp [branchMod] at he
        | true =>
          simp only [if_pos rfl] at h2
          rcases h2 with ⟨i2, _, he⟩ | ⟨_, he⟩ <;> simp [branchMod] at he
      · obtain ⟨i2, _, hp2, he⟩ := (mem_selBranchMods noisy pl _ _).mp h
        have : i = i2 := by
          cases noisy <;> simp [branchMod] at he <;> exact he
        subst this
        exact hp2
    · intro hp
      rw [hmods]
      apply List.mem_append_right
      exact (mem_selBranchMods noisy pl _ _).mpr ⟨i, List.mem_range.mpr hi, hp, rfl⟩
  · rintro rfl
    constructor
    · intro hmem
      rw [hmods] at hmem
      rcases List.mem_append.mp hmem with h | h
      · have h2 := (mem_selEncPart true pl _).mp h
        simp only [if_pos rfl] at h2
        rcases h2 with ⟨i, _, he⟩ | ⟨hp0, _⟩
        · simp at he
        · exact hp0
      · obtain ⟨i, _, _, he⟩ := (mem_selBranchMods true pl _ _).mp h
        simp [branchMod] at he
    · intro hp0
      rw [hmods]
      apply List.mem_append_left
      refine (mem_selEncPart true pl _).mpr ?_
      rw [if_pos rfl]
      exact Or.inr ⟨hp0, rfl⟩
  · cases noisy with
    | false => exact ⟨by decide, by decide⟩
    | true => exact ⟨by decide, by decide⟩

/-- Witness for C7 on a concrete 3-hidden-layer noisy topology with layers
0 and 1 included: the layer-0 reconstruction branch is present and the
input handle is present. -/
theorem claim_C7_witness :
    ((0 : Nat) < 3 ∧
      (branchMod true 0 ∈ cmMods (selectiveCM true [true, true, false]) ↔
        [true, true, false].getD 0 false = true)) ∧
    (Mod.inputHandle ∈ cmMods (selectiveCM true [true, true, false]) ↔
      [true, true, false].getD 0 false = true) :=
  ⟨⟨by decide, (claim_C7 true [true, true, false]).2.1 0 (by decide)⟩,
   (claim_C7 true [true, true, false]).2.2.1 rfl⟩
